import Mathlib

/-
Verification of the `localgraph` utility routines (src/localgraph/utils.py):
`max_cor_response`, `restrict_to_local_graph` and `node_cluster`.

The Python code is shallowly embedded:
* a numpy data matrix is a `List (List Rat)` of rows;
* a p x p binary adjacency matrix is its size `n` together with an entry
  function `A : Nat → Nat → Bool` (only entries with both indices below `n`
  are ever consulted, matching numpy row indexing on in-range indices);
* a Python dict is an association list (`alook` is dict lookup; keys are
  inserted at most once by all the code below, so lookup order is immaterial);
* a `collections.deque` used as a FIFO queue is a `List` (pop at the head,
  append at the tail);
* Python exceptions are an `Except String` result.
-/

namespace LocalGraph

/-- Dictionary lookup on an association list (Python `d[k]` / `k in d`). -/
def alook {κ ν : Type} [DecidableEq κ] : List (κ × ν) → κ → Option ν
  | [], _ => none
  | (k, v) :: rest, x => if k = x then some v else alook rest x

/-- `isErr e` is true when an embedded call raised an exception. -/
def isErr {α : Type} : Except String α → Bool
  | .error _ => true
  | .ok _ => false

theorem alook_cons {κ ν : Type} [DecidableEq κ] (k : κ) (v : ν) (rest : List (κ × ν)) (x : κ) :
    alook ((k, v) :: rest) x = if k = x then some v else alook rest x := rfl

/-- Inserting a key that is not `x` leaves the lookup of `x` unchanged. -/
theorem alook_cons_ne {κ ν : Type} [DecidableEq κ] {k x : κ} (v : ν) (rest : List (κ × ν))
    (h : k ≠ x) : alook ((k, v) :: rest) x = alook rest x := by
  simp [alook_cons, h]

/-! ### CorrelationScreen: `max_cor_response` -/

/-- Number of features `p = X.shape[1]` of the embedded data matrix. -/
def ncols (X : List (List Rat)) : Nat := (X.headD []).length

/-- Entry `(a, b)` of `Sigma_hat = X.T @ X / n`. -/
def sigma_hat (X : List (List Rat)) (a b : Nat) : Rat :=
  (X.map (fun row => row.getD a 0 * row.getD b 0)).sum / (X.length : Rat)

/-- Absolute value on `Rat`, written out so that it evaluates in the kernel. -/
def rabs (q : Rat) : Rat := if q < 0 then -q else q

/-- Entry `(a, b)` of `abs_cor`: absolute value of `Sigma_hat` with the
diagonal filled with `0` (`np.fill_diagonal(abs_cor, 0)`). -/
def abs_cor (X : List (List Rat)) (a b : Nat) : Rat :=
  if a = b then 0 else rabs (sigma_hat X a b)

/-- Binary maximum on `Rat`, written out so that it evaluates in the kernel. -/
def rmax (a b : Rat) : Rat := if a ≤ b then b else a

/-- `np.max(abs_cor[i, :])`: maximum of row `i`.  All entries of `abs_cor` are
nonnegative, so folding `rmax` from `0` agrees with numpy's row maximum on a
nonempty row. -/
def rowMax (X : List (List Rat)) (i : Nat) : Rat :=
  ((List.range (ncols X)).map (fun j => abs_cor X i j)).foldl rmax 0

/-- Resolution of a (possibly negative) numpy index against axis length `p`. -/
def npIndex (p : Nat) (i : Int) : Nat := (if i < 0 then i + p else i).toNat

/-- `max_cor_response(X, target_features)`: one row maximum per requested
target, in order; numpy raises `IndexError` on an index outside `[-p, p)`. -/
def max_cor_response (X : List (List Rat)) : List Int → Except String (List Rat)
  | [] => .ok []
  | i :: rest =>
    if -(ncols X : Int) ≤ i ∧ i < (ncols X : Int) then
      match max_cor_response X rest with
      | .ok vs => .ok (rowMax X (npIndex (ncols X) i) :: vs)
      | .error e => .error e
    else .error "IndexError"

theorem max_cor_response_nil (X : List (List Rat)) : max_cor_response X [] = .ok [] := rfl

theorem max_cor_response_cons (X : List (List Rat)) (i : Int) (rest : List Int) :
    max_cor_response X (i :: rest) =
      if -(ncols X : Int) ≤ i ∧ i < (ncols X : Int) then
        match max_cor_response X rest with
        | .ok vs => .ok (rowMax X (npIndex (ncols X) i) :: vs)
        | .error e => .error e
      else .error "IndexError" := rfl

/-- C4 (amended): `max_cor_response` fails with an out-of-range error iff some
requested target index lies outside `[-p, p)` (numpy resolves a negative index
`i ∈ [-p, -1]` to `p + i` instead of failing); when every index is in
`[-p, p)` it returns one row maximum per target, in the order given. -/
theorem max_cor_response_range_spec (X : List (List Rat)) (tf : List Int) :
    (isErr (max_cor_response X tf) = true ↔
      ∃ i ∈ tf, i < -(ncols X : Int) ∨ (ncols X : Int) ≤ i) ∧
    ((∀ i ∈ tf, -(ncols X : Int) ≤ i ∧ i < (ncols X : Int)) →
      max_cor_response X tf = .ok (tf.map (fun i => rowMax X (npIndex (ncols X) i)))) := by
  induction tf with
  | nil => simp [max_cor_response_nil, isErr]
  | cons i rest ih =>
    constructor
    · rw [max_cor_response_cons]
      by_cases h : -(ncols X : Int) ≤ i ∧ i < (ncols X : Int)
      · rw [if_pos h]
        rcases hr : max_cor_response X rest with e | vs
        · simp only [isErr]
          constructor
          · intro _
            rcases (ih.1).mp (by rw [hr]; rfl) with ⟨j, hj, hout⟩
            exact ⟨j, List.mem_cons_of_mem _ hj, hout⟩
          · intro _; trivial
        · simp only [isErr]
          constructor
          · intro hc; exact absurd hc (by simp)
          · rintro ⟨j, hj, hout⟩
            rcases List.mem_cons.mp hj with rfl | hj'
            · rcases hout with hlt | hge
              · exact absurd h.1 (by omega)
              · exact absurd h.2 (by omega)
            · have : isErr (max_cor_response X rest) = true := (ih.1).mpr ⟨j, hj', hout⟩
              rw [hr] at this; simp [isErr] at this
      · rw [if_neg h]
        simp only [isErr, true_iff]
        refine ⟨i, List.mem_cons_self i rest, ?_⟩
        omega
    · intro hall
      rw [max_cor_response_cons, if_pos (hall i (List.mem_cons_self i rest))]
      rw [ih.2 (fun j hj => hall j (List.mem_cons_of_mem _ hj))]
      simp

/-- C4 counterexample: the target index `-1` is negative (outside `[0, p)`),
yet `max_cor_response` does not fail on it: for the 1×2 data matrix
`[[1, 1]]` it returns the row maximum of the wrapped-around row `p - 1 = 1`. -/
theorem max_cor_response_neg_index_ok :
    isErr (max_cor_response [[(1 : Rat), 1]] [-1]) = false ∧
      max_cor_response [[(1 : Rat), 1]] [-1] = .ok [rowMax [[(1 : Rat), 1]] 1] :=
  ⟨by decide, rfl⟩

/-- Witness for `max_cor_response_range_spec` at a concrete input. -/
theorem max_cor_response_range_spec_witness :
    max_cor_response [[(1 : Rat), 1]] [0, 1] =
      .ok [rowMax [[(1 : Rat), 1]] 0, rowMax [[(1 : Rat), 1]] 1] := by
  have h := (max_cor_response_range_spec [[(1 : Rat), 1]] [0, 1]).2 (by decide)
  simpa using h

/-! ### LocalGraphBuilder: `restrict_to_local_graph`

The adjacency matrix is embedded as a size `n` and an entry function
`A : Nat → Nat → Bool`; `nbrs n A u` is `np.nonzero(A[u])[0]`, the ascending
list of columns of row `u` holding a nonzero entry.  `max_radius` is an `Int`
(the source never validates its sign).  The BFS distance dictionary is an
association list; `bfsAux` carries fuel that, from the initial state, is
provably never exhausted (`bfsAux_fuel_stable`), since every node enters the
frontier at most once. -/

/-- `np.nonzero(A[u])[0]` for row `u` of an `n × n` matrix. -/
def nbrs (n : Nat) (A : Nat → Nat → Bool) (u : Nat) : List Nat :=
  (List.range n).filter (fun v => A u v)

/-- Inner `for v in np.nonzero(A[u])[0]` loop of the BFS:
assign `dist[v] = du + 1` and append `v` to the frontier for every
still-unassigned `v`. -/
def expand (du : Nat) :
    List Nat → List (Nat × Nat) → List Nat → List (Nat × Nat) × List Nat
  | [], dist, frontier => (dist, frontier)
  | v :: vs, dist, frontier =>
    if (alook dist v).isSome then expand du vs dist frontier
    else expand du vs ((v, du + 1) :: dist) (frontier ++ [v])

/-- The `while frontier:` loop of `restrict_to_local_graph`.  A popped node is
always present in `dist` (it was assigned when enqueued), so the `none` branch
is dead code on every state the program reaches. -/
def bfsAux (n : Nat) (A : Nat → Nat → Bool) (r : Int) :
    Nat → List (Nat × Nat) → List Nat → List (Nat × Nat)
  | 0, dist, _ => dist
  | _ + 1, dist, [] => dist
  | fuel + 1, dist, u :: rest =>
    match alook dist u with
    | none => bfsAux n A r fuel dist rest
    | some du =>
      if r ≤ (du : Int) then bfsAux n A r fuel dist rest
      else
        let s := expand du (nbrs n A u) dist rest
        bfsAux n A r fuel s.1 s.2

/-- The multi-source BFS distance pass of `restrict_to_local_graph`:
`dist = {t: 0 for t in target_features}; frontier = deque(target_features)`,
then the `while` loop.  The fuel `targets.length + n` bounds the number of
loop iterations: each iteration pops one node, and nodes are enqueued at most
once (targets initially, other nodes on first assignment, always below `n`). -/
def bfsDist (n : Nat) (A : Nat → Nat → Bool) (targets : List Nat) (r : Int) :
    List (Nat × Nat) :=
  bfsAux n A r (targets.length + n) (targets.map (fun t => (t, 0))) targets

/-- The edge-dictionary pass of `restrict_to_local_graph`: for every `i < n`
with an assigned distance and every `j ∈ np.nonzero(A[i])[0]` with `i < j` and
an assigned distance, unless both distances equal `max_radius`, insert both
`(i, j)` and `(j, i)` with value `1`.  The dictionary is represented by its
insertion list; all inserted keys are distinct. -/
def edgePassQ (n : Nat) (A : Nat → Nat → Bool) (r : Int) (dist : List (Nat × Nat)) :
    List ((Nat × Nat) × Nat) :=
  (List.range n).flatMap (fun i =>
    match alook dist i with
    | none => []
    | some di =>
      (nbrs n A i).flatMap (fun j =>
        if j ≤ i then []
        else
          match alook dist j with
          | none => []
          | some dj =>
            if (di : Int) = r ∧ (dj : Int) = r then []
            else [((i, j), 1), ((j, i), 1)]))

/-- `restrict_to_local_graph(A, target_features, max_radius)`: BFS distance
pass followed by the edge-dictionary pass. -/
def restrict_to_local_graph (n : Nat) (A : Nat → Nat → Bool) (targets : List Nat)
    (r : Int) : List ((Nat × Nat) × Nat) :=
  edgePassQ n A r (bfsDist n A targets r)

/-- `withinT n A targets k v`: `v` is reachable from some target in at most
`k` hops along nonzero entries of `A` (steps read row-wise, as the code does;
for a symmetric matrix this is the undirected hop distance bound). -/
def withinT (n : Nat) (A : Nat → Nat → Bool) (targets : List Nat) : Nat → Nat → Prop
  | 0, v => v ∈ targets
  | k + 1, v => withinT n A targets k v ∨ ∃ u, withinT n A targets k u ∧ v ∈ nbrs n A u

theorem mem_nbrs {n : Nat} {A : Nat → Nat → Bool} {u v : Nat} :
    v ∈ nbrs n A u ↔ v < n ∧ A u v = true := by
  simp [nbrs, List.mem_filter, List.mem_range, and_comm]

theorem nbrs_nodup (n : Nat) (A : Nat → Nat → Bool) (u : Nat) : (nbrs n A u).Nodup :=
  (List.nodup_range n).filter _

theorem withinT_succ_of_withinT {n A targets k v} (h : withinT n A targets k v) :
    withinT n A targets (k + 1) v := Or.inl h

theorem withinT_mono {n A targets} : ∀ {k k' v}, k ≤ k' →
    withinT n A targets k v → withinT n A targets k' v := by
  intro k k' v h hw
  induction k' with
  | zero => exact Nat.le_zero.mp h ▸ hw
  | succ m ih =>
    rcases Nat.lt_or_ge k (m + 1) with hlt | hge
    · exact Or.inl (ih (Nat.lt_succ_iff.mp hlt))
    · exact (Nat.le_antisymm h hge) ▸ hw

/-- `d` is the exact hop distance of `v` from the nearest target. -/
def isMinDist (n : Nat) (A : Nat → Nat → Bool) (targets : List Nat) (v d : Nat) : Prop :=
  withinT n A targets d v ∧ ∀ k < d, ¬ withinT n A targets k v

theorem isMinDist_le {n A targets v d k} (h : isMinDist n A targets v d)
    (hw : withinT n A targets k v) : d ≤ k := by
  by_contra hc
  exact h.2 k (Nat.lt_of_not_le hc) hw

/-- Characterization of the distance dictionary produced by `expand`. -/
theorem expand_alook (du : Nat) :
    ∀ (vs : List Nat) (dist : List (Nat × Nat)) (fr : List Nat) (x : Nat),
      alook (expand du vs dist fr).1 x =
        if x ∈ vs ∧ alook dist x = none then some (du + 1) else alook dist x := by
  intro vs
  induction vs with
  | nil => intro dist fr x; simp [expand]
  | cons v vs ih =>
    intro dist fr x
    by_cases hv : (alook dist v).isSome
    · rw [expand, if_pos hv, ih]
      by_cases hx : x = v
      · subst hx
        rcases Option.isSome_iff_exists.mp hv with ⟨d, hd⟩
        simp [hd]
      · simp [hx]
    · rw [expand, if_neg hv]
      rw [ih]
      by_cases hx : x = v
      · subst hx
        have hnone : alook dist x = none := Option.not_isSome_iff_eq_none.mp hv
        simp [alook_cons, hnone]
      · rw [alook_cons_ne _ _ (Ne.symm hx)]
        simp only [List.mem_cons]
        by_cases hxvs : x ∈ vs ∧ alook dist x = none
        · rw [if_pos hxvs, if_pos ⟨Or.inr hxvs.1, hxvs.2⟩]
        · rw [if_neg hxvs, if_neg]
          intro ⟨hmem, hnone⟩
          rcases hmem with h | h
          · exact hx h
          · exact hxvs ⟨h, hnone⟩

/-- A key already assigned keeps its value through `expand`. -/
theorem expand_alook_stable {du : Nat} {vs : List Nat} {dist : List (Nat × Nat)}
    {fr : List Nat} {x : Nat} {d : Nat} (h : alook dist x = some d) :
    alook (expand du vs dist fr).1 x = some d := by
  rw [expand_alook]
  simp [h]

/-- Characterization of the frontier produced by `expand` (the neighbour list
is duplicate-free, which holds for `nbrs`). -/
theorem expand_frontier (du : Nat) :
    ∀ (vs : List Nat) (dist : List (Nat × Nat)) (fr : List Nat), vs.Nodup →
      (expand du vs dist fr).2 =
        fr ++ vs.filter (fun v => (alook dist v).isNone) := by
  intro vs
  induction vs with
  | nil => intro dist fr _; simp [expand]
  | cons v vs ih =>
    intro dist fr hnd
    have hv_not : v ∉ vs := (List.nodup_cons.mp hnd).1
    have hnd' : vs.Nodup := (List.nodup_cons.mp hnd).2
    by_cases hv : (alook dist v).isSome
    · rw [expand, if_pos hv, ih dist fr hnd']
      have : (alook dist v).isNone = false := by
        rcases Option.isSome_iff_exists.mp hv with ⟨d, hd⟩
        simp [hd]
      simp [List.filter_cons, this]
    · rw [expand, if_neg hv, ih _ _ hnd']
      have hnone : alook dist v = none := Option.not_isSome_iff_eq_none.mp hv
      have hfilter : vs.filter (fun x => (alook ((v, du + 1) :: dist) x).isNone) =
          vs.filter (fun x => (alook dist x).isNone) := by
        apply List.filter_congr
        intro x hx
        have hxv : v ≠ x := fun h => hv_not (h ▸ hx)
        rw [alook_cons_ne _ _ hxv]
      rw [hfilter]
      simp [List.filter_cons, hnone]

/-- Invariant of the BFS loop state of `restrict_to_local_graph`:
every frontier node and every target is assigned; frontier values are
nondecreasing and within one of each other; every assigned value is the exact
hop distance from the nearest target; and every already-popped node whose
distance is below the radius has had all its neighbours assigned. -/
structure BfsInv (n : Nat) (A : Nat → Nat → Bool) (targets : List Nat) (r : Int)
    (dist : List (Nat × Nat)) (fr : List Nat) : Prop where
  keyed : ∀ u ∈ fr, (alook dist u).isSome
  tkeyed : ∀ t ∈ targets, (alook dist t).isSome
  sorted : fr.Pairwise (fun u v => ∀ du dv,
    alook dist u = some du → alook dist v = some dv → du ≤ dv)
  close : ∀ u ∈ fr, ∀ v ∈ fr, ∀ du dv,
    alook dist u = some du → alook dist v = some dv → dv ≤ du + 1
  exact : ∀ v d, alook dist v = some d → isMinDist n A targets v d
  processed : ∀ u d, alook dist u = some d → u ∉ fr → (d : Int) < r →
    ∀ v ∈ nbrs n A u, (alook dist v).isSome

/-- Every node within `k ≤ r` hops of a target is already assigned, provided
every frontier value is at least `k`.  This is the completeness core of the
BFS: it follows from exactness of assigned values and the processed-node
closure property alone. -/
theorem bfs_covered {n : Nat} {A : Nat → Nat → Bool} {targets : List Nat} {r : Int}
    {dist : List (Nat × Nat)} {fr : List Nat} (inv : BfsInv n A targets r dist fr) :
    ∀ k w, withinT n A targets k w → (k : Int) ≤ r →
      (∀ u ∈ fr, ∀ du, alook dist u = some du → k ≤ du) →
      (alook dist w).isSome := by
  intro k
  induction k with
  | zero =>
    intro w hw _ _
    exact inv.tkeyed w hw
  | succ j ih =>
    intro w hw hkr hfr
    rcases hw with hw | ⟨u', hu', hstep⟩
    · exact ih w hw (by omega) (fun u hu du hdu => Nat.le_of_succ_le (hfr u hu du hdu))
    · have hu'keyed : (alook dist u').isSome :=
        ih u' hu' (by omega) (fun u hu du hdu => Nat.le_of_succ_le (hfr u hu du hdu))
      rcases Option.isSome_iff_exists.mp hu'keyed with ⟨d', hd'⟩
      have hmin : isMinDist n A targets u' d' := inv.exact u' d' hd'
      have hd'le : d' ≤ j := isMinDist_le hmin hu'
      have hu'notfr : u' ∉ fr := by
        intro hmem
        have := hfr u' hmem d' hd'
        omega
      exact inv.processed u' d' hd' hu'notfr (by omega) w hstep

/-- Expanding the popped head `u` (with `dist[u] = du < max_radius`) preserves
the BFS loop invariant. -/
theorem bfsInv_expand {n : Nat} {A : Nat → Nat → Bool} {targets : List Nat} {r : Int}
    {dist : List (Nat × Nat)} {u : Nat} {rest : List Nat} {du : Nat}
    (inv : BfsInv n A targets r dist (u :: rest))
    (hdu : alook dist u = some du) (hur : (du : Int) < r) :
    BfsInv n A targets r (expand du (nbrs n A u) dist rest).1
      (expand du (nbrs n A u) dist rest).2 := by
  set dist' := (expand du (nbrs n A u) dist rest).1 with hdist'
  have hlook : ∀ x, alook dist' x =
      if x ∈ nbrs n A u ∧ alook dist x = none then some (du + 1) else alook dist x :=
    expand_alook du (nbrs n A u) dist rest
  have hstable : ∀ {x dx}, alook dist x = some dx → alook dist' x = some dx := by
    intro x dx h
    rw [hlook]
    simp [h]
  have hfr : (expand du (nbrs n A u) dist rest).2 =
      rest ++ (nbrs n A u).filter (fun v => (alook dist v).isNone) :=
    expand_frontier du (nbrs n A u) dist rest (nbrs_nodup n A u)
  set newly := (nbrs n A u).filter (fun v => (alook dist v).isNone) with hnewly
  have hmem_newly : ∀ {x}, x ∈ newly ↔ x ∈ nbrs n A u ∧ alook dist x = none := by
    intro x
    simp [hnewly, List.mem_filter, Option.isNone_iff_eq_none]
  have hnewlook : ∀ {x}, x ∈ newly → alook dist' x = some (du + 1) := by
    intro x hx
    rw [hlook, if_pos (hmem_newly.mp hx)]
  -- every node of `rest` keeps a value between `du` and `du + 1`
  have hrestvals : ∀ x ∈ rest, ∃ dx, alook dist x = some dx ∧ du ≤ dx ∧ dx ≤ du + 1 := by
    intro x hx
    rcases Option.isSome_iff_exists.mp (inv.keyed x (List.mem_cons_of_mem _ hx)) with ⟨dx, hdx⟩
    refine ⟨dx, hdx, ?_, ?_⟩
    · exact (List.pairwise_cons.mp inv.sorted).1 x hx du dx hdu hdx
    · exact inv.close u (List.mem_cons_self _ _) x (List.mem_cons_of_mem _ hx) du dx hdu hdx
  -- the exactness of a freshly assigned value, via `bfs_covered` at the old state
  have hfresh_exact : ∀ x ∈ newly, isMinDist n A targets x (du + 1) := by
    intro x hx
    rcases hmem_newly.mp hx with ⟨hxn, hxnone⟩
    have humin : isMinDist n A targets u du := inv.exact u du hdu
    constructor
    · exact Or.inr ⟨u, humin.1, hxn⟩
    · intro k hk hw
      have : (alook dist x).isSome := by
        refine bfs_covered inv k x hw (by omega) ?_
        intro y hy dy hdy
        rcases List.mem_cons.mp hy with rfl | hy'
        · rw [hdu] at hdy
          injection hdy with hde
          omega
        · rcases hrestvals y hy' with ⟨dy', hdy', hge, _⟩
          rw [hdy'] at hdy
          injection hdy with hde
          omega
      rw [hxnone] at this
      simp at this
  rw [hfr]
  constructor
  · -- keyed
    intro x hx
    rcases List.mem_append.mp hx with hx | hx
    · rcases hrestvals x hx with ⟨dx, hdx, _, _⟩
      exact Option.isSome_iff_exists.mpr ⟨dx, hstable hdx⟩
    · exact Option.isSome_iff_exists.mpr ⟨du + 1, hnewlook hx⟩
  · -- tkeyed
    intro t ht
    rcases Option.isSome_iff_exists.mp (inv.tkeyed t ht) with ⟨dt, hdt⟩
    exact Option.isSome_iff_exists.mpr ⟨dt, hstable hdt⟩
  · -- sorted
    rw [List.pairwise_append]
    refine ⟨?_, ?_, ?_⟩
    · have hrest : rest.Pairwise (fun a b => ∀ da db,
          alook dist a = some da → alook dist b = some db → da ≤ db) :=
        (List.pairwise_cons.mp inv.sorted).2
      refine List.Pairwise.imp_of_mem ?_ hrest
      intro a b ha hb hab da db hda' hdb'
      rcases hrestvals a ha with ⟨da0, hda0, _, _⟩
      rcases hrestvals b hb with ⟨db0, hdb0, _, _⟩
      rw [hstable hda0] at hda'
      rw [hstable hdb0] at hdb'
      cases hda'
      cases hdb'
      exact hab _ _ hda0 hdb0
    · apply List.pairwise_of_forall_mem_list
      intro a ha b hb da db hda' hdb'
      rw [hnewlook ha] at hda'
      rw [hnewlook hb] at hdb'
      cases hda'
      cases hdb'
      exact Nat.le_refl _
    · intro a ha b hb da db hda' hdb'
      rcases hrestvals a ha with ⟨da0, hda0, _, hle⟩
      rw [hstable hda0] at hda'
      cases hda'
      rw [hnewlook hb] at hdb'
      cases hdb'
      omega
  · -- close
    intro x hx y hy dx dy hdx' hdy'
    have hxval : du ≤ dx := by
      rcases List.mem_append.mp hx with hx | hx
      · rcases hrestvals x hx with ⟨dx0, hdx0, hge, _⟩
        rw [hstable hdx0] at hdx'
        cases hdx'
        exact hge
      · rw [hnewlook hx] at hdx'
        cases hdx'
        omega
    have hyval : dy ≤ du + 1 := by
      rcases List.mem_append.mp hy with hy | hy
      · rcases hrestvals y hy with ⟨dy0, hdy0, _, hle⟩
        rw [hstable hdy0] at hdy'
        cases hdy'
        exact hle
      · rw [hnewlook hy] at hdy'
        cases hdy'
        exact Nat.le_refl _
    omega
  · -- exact
    intro v d hvd
    rw [hlook] at hvd
    by_cases hcond : v ∈ nbrs n A u ∧ alook dist v = none
    · rw [if_pos hcond] at hvd
      cases hvd
      exact hfresh_exact v (hmem_newly.mpr hcond)
    · rw [if_neg hcond] at hvd
      exact inv.exact v d hvd
  · -- processed
    intro x dx hdx' hxnot hxr w hw
    have hxrest : x ∉ rest := fun h => hxnot (List.mem_append.mpr (Or.inl h))
    have hxnew : x ∉ newly := fun h => hxnot (List.mem_append.mpr (Or.inr h))
    have hdxold : alook dist x = some dx := by
      rw [hlook] at hdx'
      by_cases hcond : x ∈ nbrs n A u ∧ alook dist x = none
      · exact absurd (hmem_newly.mpr hcond) hxnew
      · rwa [if_neg hcond] at hdx'
    by_cases hxu : x = u
    · subst hxu
      rw [hlook]
      by_cases hcond : w ∈ nbrs n A x ∧ alook dist w = none
      · rw [if_pos hcond]
        simp
      · rw [if_neg hcond]
        rcases (not_and_or.mp hcond) with h | h
        · exact absurd hw h
        · rcases Option.ne_none_iff_exists'.mp h with ⟨dw, hdw⟩
          simp [hdw]
    · have hxfr : x ∉ u :: rest := by
        intro h
        rcases List.mem_cons.mp h with h | h
        · exact hxu h
        · exact hxrest h
      have := inv.processed x dx hdxold hxfr hxr w hw
      rcases Option.isSome_iff_exists.mp this with ⟨dw, hdw⟩
      exact Option.isSome_iff_exists.mpr ⟨dw, hstable hdw⟩

theorem bfsAux_zero {n A r dist fr} : bfsAux n A r 0 dist fr = dist := rfl

theorem bfsAux_nil {n A r dist} : ∀ fuel, bfsAux n A r fuel dist [] = dist := by
  intro fuel
  cases fuel <;> rfl

theorem bfsAux_cons_none {n A r fuel dist u rest} (h : alook dist u = none) :
    bfsAux n A r (fuel + 1) dist (u :: rest) = bfsAux n A r fuel dist rest := by
  simp [bfsAux, h]

theorem bfsAux_cons_skip {n A r fuel dist u rest} {du : Nat} (h : alook dist u = some du)
    (hge : r ≤ (du : Int)) :
    bfsAux n A r (fuel + 1) dist (u :: rest) = bfsAux n A r fuel dist rest := by
  simp [bfsAux, h, hge]

theorem bfsAux_cons_expand {n A r fuel dist u rest} {du : Nat} (h : alook dist u = some du)
    (hlt : ¬ r ≤ (du : Int)) :
    bfsAux n A r (fuel + 1) dist (u :: rest) =
      bfsAux n A r fuel (expand du (nbrs n A u) dist rest).1
        (expand du (nbrs n A u) dist rest).2 := by
  simp [bfsAux, h, hlt]

/-- Popping the head without expanding it (its distance has reached the
radius) preserves the BFS loop invariant. -/
theorem bfsInv_skip {n : Nat} {A : Nat → Nat → Bool} {targets : List Nat} {r : Int}
    {dist : List (Nat × Nat)} {u : Nat} {rest : List Nat} {du : Nat}
    (inv : BfsInv n A targets r dist (u :: rest))
    (hdu : alook dist u = some du) (hge : r ≤ (du : Int)) :
    BfsInv n A targets r dist rest := by
  constructor
  · exact fun x hx => inv.keyed x (List.mem_cons_of_mem _ hx)
  · exact inv.tkeyed
  · exact (List.pairwise_cons.mp inv.sorted).2
  · exact fun x hx y hy => inv.close x (List.mem_cons_of_mem _ hx) y (List.mem_cons_of_mem _ hy)
  · exact inv.exact
  · intro x dx hdx hxrest hxr w hw
    by_cases hxu : x = u
    · subst hxu
      rw [hdu] at hdx
      injection hdx with hde
      omega
    · have hxfr : x ∉ u :: rest := by
        intro hc
        rcases List.mem_cons.mp hc with hc | hc
        · exact hxu hc
        · exact hxrest hc
      exact inv.processed x dx hdx hxfr hxr w hw

/-- Exactness of every value of the distance dictionary computed by the BFS
loop, from any state satisfying the invariant. -/
theorem bfsAux_exact {n : Nat} {A : Nat → Nat → Bool} {targets : List Nat} {r : Int} :
    ∀ (fuel : Nat) (dist : List (Nat × Nat)) (fr : List Nat),
      BfsInv n A targets r dist fr →
      ∀ v d, alook (bfsAux n A r fuel dist fr) v = some d → isMinDist n A targets v d := by
  intro fuel
  induction fuel with
  | zero =>
    intro dist fr inv v d h
    rw [bfsAux_zero] at h
    exact inv.exact v d h
  | succ fuel ih =>
    intro dist fr inv v d h
    cases fr with
    | nil =>
      rw [bfsAux_nil] at h
      exact inv.exact v d h
    | cons u rest =>
      rcases hu : alook dist u with _ | du
      · have := inv.keyed u (List.mem_cons_self _ _)
        rw [hu] at this
        simp at this
      · by_cases hge : r ≤ (du : Int)
        · rw [bfsAux_cons_skip hu hge] at h
          exact ih dist rest (bfsInv_skip inv hu hge) v d h
        · rw [bfsAux_cons_expand hu hge] at h
          exact ih _ _ (bfsInv_expand inv hu (by omega)) v d h

/-- Lookup in the initial distance dictionary `{t: 0 for t in target_features}`. -/
theorem alook_init (targets : List Nat) (x : Nat) :
    alook (targets.map (fun t => (t, 0))) x =
      if x ∈ targets then some 0 else none := by
  induction targets with
  | nil => simp [alook]
  | cons t ts ih =>
    by_cases hx : t = x
    · subst hx
      simp [alook_cons]
    · rw [List.map_cons, alook_cons_ne _ _ hx, ih]
      simp [List.mem_cons, Ne.symm hx]

/-- The initial BFS state satisfies the loop invariant. -/
theorem bfsInv_init (n : Nat) (A : Nat → Nat → Bool) (targets : List Nat) (r : Int) :
    BfsInv n A targets r (targets.map (fun t => (t, 0))) targets := by
  have hlook := alook_init targets
  constructor
  · intro u hu
    rw [hlook, if_pos hu]
    simp
  · intro t ht
    rw [hlook, if_pos ht]
    simp
  · apply List.pairwise_of_forall_mem_list
    intro a ha b hb da db hda hdb
    rw [hlook, if_pos ha] at hda
    rw [hlook, if_pos hb] at hdb
    injection hda with h1
    injection hdb with h2
    omega
  · intro a ha b hb da db hda hdb
    rw [hlook, if_pos ha] at hda
    rw [hlook, if_pos hb] at hdb
    injection hda with h1
    injection hdb with h2
    omega
  · intro v d hvd
    rw [hlook] at hvd
    by_cases hv : v ∈ targets
    · rw [if_pos hv] at hvd
      injection hvd with h1
      subst h1
      exact ⟨hv, fun k hk => absurd hk (Nat.not_lt_zero k)⟩
    · rw [if_neg hv] at hvd
      simp at hvd
  · intro x dx hdx hxfr _ w _
    rw [hlook] at hdx
    by_cases hx : x ∈ targets
    · exact absurd hx hxfr
    · rw [if_neg hx] at hdx
      simp at hdx

/-- C1: for a symmetric binary adjacency matrix with target indices in range
and any radius `r ≥ 0`, every node assigned a distance by the multi-source BFS
pass of `restrict_to_local_graph` receives exactly the unweighted
shortest-path hop distance from that node to the nearest target in the graph
induced by `A` (`isMinDist`: reachable in that many hops, and in no fewer). -/
theorem bfs_distances_exact (n : Nat) (A : Nat → Nat → Bool) (targets : List Nat) (r : Int)
    (hsym : ∀ i < n, ∀ j < n, A i j = A j i)
    (htargets : ∀ t ∈ targets, t < n) (hr : 0 ≤ r) :
    ∀ v d, alook (bfsDist n A targets r) v = some d → isMinDist n A targets v d :=
  fun v d h => bfsAux_exact _ _ _ (bfsInv_init n A targets r) v d h

/-- Witness for `bfs_distances_exact`: on the 4-node path `0 - 1 - 2 - 3`
with target `{0}` and radius `2`, node `2` is assigned distance `2`, which is
its exact hop distance from the target. -/
theorem bfs_distances_exact_witness :
    isMinDist 4 (fun i j => decide (i + 1 = j ∨ j + 1 = i)) [0] 2 2 :=
  bfs_distances_exact 4 (fun i j => decide (i + 1 = j ∨ j + 1 = i)) [0] 2
    (by decide) (by decide) (by decide) 2 2 (by decide)

/-- Number of nodes below `n` not yet assigned a distance. -/
def unassignedCount (n : Nat) (dist : List (Nat × Nat)) : Nat :=
  ((Finset.range n).filter (fun v => alook dist v = none)).card

theorem expand_unassignedCount {n : Nat} {A : Nat → Nat → Bool} (du u : Nat)
    (dist : List (Nat × Nat)) (fr : List Nat) :
    unassignedCount n (expand du (nbrs n A u) dist fr).1 +
      ((nbrs n A u).filter (fun v => (alook dist v).isNone)).length =
      unassignedCount n dist := by
  set newly := (nbrs n A u).filter (fun v => (alook dist v).isNone) with hnewly
  have hnd : newly.Nodup := (nbrs_nodup n A u).filter _
  have hsub : newly.toFinset ⊆ (Finset.range n).filter (fun v => alook dist v = none) := by
    intro x hx
    rw [List.mem_toFinset] at hx
    rcases List.mem_filter.mp hx with ⟨hxn, hxnone⟩
    rw [Finset.mem_filter, Finset.mem_range]
    exact ⟨(mem_nbrs.mp hxn).1, Option.isNone_iff_eq_none.mp hxnone⟩
  have hset : (Finset.range n).filter (fun v => alook (expand du (nbrs n A u) dist fr).1 v = none) =
      ((Finset.range n).filter (fun v => alook dist v = none)) \ newly.toFinset := by
    ext x
    simp only [Finset.mem_sdiff, Finset.mem_filter, Finset.mem_range, List.mem_toFinset]
    rw [expand_alook]
    constructor
    · intro ⟨hxn, hxeq⟩
      by_cases hc : x ∈ nbrs n A u ∧ alook dist x = none
      · rw [if_pos hc] at hxeq
        simp at hxeq
      · rw [if_neg hc] at hxeq
        refine ⟨⟨hxn, hxeq⟩, ?_⟩
        intro hmem
        exact hc (List.mem_filter.mp hmem |>.imp id (fun h => Option.isNone_iff_eq_none.mp h))
    · intro ⟨⟨hxn, hxeq⟩, hnot⟩
      refine ⟨hxn, ?_⟩
      rw [if_neg, hxeq]
      intro ⟨hmem, hnone⟩
      exact hnot (List.mem_filter.mpr ⟨hmem, Option.isNone_iff_eq_none.mpr hnone⟩)
  rw [unassignedCount, hset, Finset.card_sdiff hsub, List.toFinset_card_of_nodup hnd]
  have hle := Finset.card_le_card hsub
  rw [List.toFinset_card_of_nodup hnd] at hle
  rw [unassignedCount]
  omega

/-- The fuel of `bfsAux` is immaterial once it dominates the frontier length
plus the number of still-unassigned nodes below `n`: the loop drains its
frontier before the fuel runs out, so `bfsDist` computes the same dictionary
as the unbounded `while` loop of the source. -/
theorem bfsAux_fuel_stable {n : Nat} {A : Nat → Nat → Bool} {r : Int} :
    ∀ (fuel : Nat) (dist : List (Nat × Nat)) (fr : List Nat),
      fr.length + unassignedCount n dist ≤ fuel →
      ∀ extra, bfsAux n A r (fuel + extra) dist fr = bfsAux n A r fuel dist fr := by
  intro fuel
  induction fuel with
  | zero =>
    intro dist fr hle extra
    have : fr = [] := List.length_eq_zero.mp (by omega)
    subst this
    rw [bfsAux_nil, bfsAux_zero]
  | succ fuel ih =>
    intro dist fr hle extra
    cases fr with
    | nil => rw [bfsAux_nil, bfsAux_nil]
    | cons u rest =>
      have hrest : rest.length + unassignedCount n dist ≤ fuel := by
        simp only [List.length_cons] at hle
        omega
      have hsucc : fuel + 1 + extra = fuel + extra + 1 := by omega
      rcases hu : alook dist u with _ | du
      · rw [hsucc, bfsAux_cons_none hu, bfsAux_cons_none hu, ih dist rest hrest]
      · by_cases hge : r ≤ (du : Int)
        · rw [hsucc, bfsAux_cons_skip hu hge, bfsAux_cons_skip hu hge, ih dist rest hrest]
        · rw [hsucc, bfsAux_cons_expand hu hge, bfsAux_cons_expand hu hge]
          apply ih
          have hcount := expand_unassignedCount (n := n) (A := A) du u dist rest
          have hfr := expand_frontier du (nbrs n A u) dist rest (nbrs_nodup n A u)
          rw [hfr, List.length_append]
          simp only [List.length_cons] at hle
          omega

/-- With a negative radius the BFS pops every target without expanding it
(`dist[u] = 0 >= max_radius`), so the distance dictionary never grows. -/
theorem bfsAux_neg_radius {n : Nat} {A : Nat → Nat → Bool} {r : Int} (hr : r < 0) :
    ∀ (fuel : Nat) (dist : List (Nat × Nat)) (fr : List Nat),
      bfsAux n A r fuel dist fr = dist := by
  intro fuel
  induction fuel with
  | zero => intro dist fr; rw [bfsAux_zero]
  | succ fuel ih =>
    intro dist fr
    cases fr with
    | nil => rw [bfsAux_nil]
    | cons u rest =>
      rcases hu : alook dist u with _ | du
      · rw [bfsAux_cons_none hu, ih]
      · rw [bfsAux_cons_skip hu (by omega), ih]

/-- Membership characterization of the edge dictionary. -/
theorem mem_edgePassQ {n : Nat} {A : Nat → Nat → Bool} {r : Int}
    {dist : List (Nat × Nat)} {e : (Nat × Nat) × Nat} :
    e ∈ edgePassQ n A r dist ↔
      ∃ i j di dj, i < n ∧ i < j ∧ j ∈ nbrs n A i ∧
        alook dist i = some di ∧ alook dist j = some dj ∧
        ¬((di : Int) = r ∧ (dj : Int) = r) ∧
        (e = ((i, j), 1) ∨ e = ((j, i), 1)) := by
  unfold edgePassQ
  rw [List.mem_flatMap]
  constructor
  · rintro ⟨i, hin, hmem⟩
    rw [List.mem_range] at hin
    rcases hdi : alook dist i with _ | di
    · rw [hdi] at hmem
      simp at hmem
    · rw [hdi] at hmem
      simp only [List.mem_flatMap] at hmem
      rcases hmem with ⟨j, hj, hmem⟩
      by_cases hij : j ≤ i
      · rw [if_pos hij] at hmem
        simp at hmem
      · rw [if_neg hij] at hmem
        rcases hdj : alook dist j with _ | dj
        · rw [hdj] at hmem
          simp at hmem
        · rw [hdj] at hmem
          have hmem2 : e ∈ (if (di : Int) = r ∧ (dj : Int) = r then
              ([] : List ((Nat × Nat) × Nat)) else [((i, j), 1), ((j, i), 1)]) := hmem
          by_cases hboth : (di : Int) = r ∧ (dj : Int) = r
          · rw [if_pos hboth] at hmem2
            simp at hmem2
          · rw [if_neg hboth] at hmem2
            simp only [List.mem_cons, List.not_mem_nil, or_false] at hmem2
            exact ⟨i, j, di, dj, hin, by omega, hj, hdi, hdj, hboth, hmem2⟩
  · rintro ⟨i, j, di, dj, hin, hij, hj, hdi, hdj, hboth, he⟩
    refine ⟨i, List.mem_range.mpr hin, ?_⟩
    rw [hdi]
    simp only [List.mem_flatMap]
    refine ⟨j, hj, ?_⟩
    rw [if_neg (show ¬ j ≤ i by omega), hdj]
    show e ∈ (if (di : Int) = r ∧ (dj : Int) = r then
      ([] : List ((Nat × Nat) × Nat)) else [((i, j), 1), ((j, i), 1)])
    rw [if_neg hboth]
    simp only [List.mem_cons, List.not_mem_nil, or_false]
    exact he

/-- C3 counterexample: with the negative radius `-1`, `restrict_to_local_graph`
raises no error and returns a non-empty edge map: on the 2-node complete graph
with both nodes as targets it returns `{(0,1): 1, (1,0): 1}`. -/
theorem restrict_neg_radius_counterexample :
    restrict_to_local_graph 2 (fun i j => decide (i ≠ j)) [0, 1] (-1) =
      [((0, 1), 1), ((1, 0), 1)] := by decide

/-- C3 (amended): a negative `max_radius` raises no error.  The BFS pass pops
every target without expanding it (`dist[u] = 0 >= max_radius`), so the
distance dictionary stays `{t: 0 for t in target_features}` and the function
returns an edge map whose edges all join two target nodes. -/
theorem restrict_neg_radius_returns (n : Nat) (A : Nat → Nat → Bool) (targets : List Nat)
    (r : Int) (hr : r < 0) :
    bfsDist n A targets r = targets.map (fun t => (t, 0)) ∧
      ∀ e ∈ restrict_to_local_graph n A targets r,
        e.1.1 ∈ targets ∧ e.1.2 ∈ targets := by
  have hdist : bfsDist n A targets r = targets.map (fun t => (t, 0)) :=
    bfsAux_neg_radius hr _ _ _
  refine ⟨hdist, ?_⟩
  intro e he
  rcases mem_edgePassQ.mp he with ⟨i, j, di, dj, _, _, _, hdi, hdj, _, hor⟩
  rw [hdist, alook_init] at hdi
  rw [hdist, alook_init] at hdj
  have hi : i ∈ targets := by
    by_cases h : i ∈ targets
    · exact h
    · rw [if_neg h] at hdi
      simp at hdi
  have hj' : j ∈ targets := by
    by_cases h : j ∈ targets
    · exact h
    · rw [if_neg h] at hdj
      simp at hdj
  rcases hor with rfl | rfl
  · exact ⟨hi, hj'⟩
  · exact ⟨hj', hi⟩

/-- Witness for `restrict_neg_radius_returns` at a concrete negative radius. -/
theorem restrict_neg_radius_returns_witness :
    bfsDist 2 (fun i j => decide (i ≠ j)) [0, 1] (-1) = [(0, 0), (1, 0)] ∧
      ∀ e ∈ restrict_to_local_graph 2 (fun i j => decide (i ≠ j)) [0, 1] (-1),
        e.1.1 ∈ [0, 1] ∧ e.1.2 ∈ [0, 1] := by
  have h := restrict_neg_radius_returns 2 (fun i j => decide (i ≠ j)) [0, 1] (-1) (by decide)
  simpa using h

/-- C6: the edge map returned by `restrict_to_local_graph` is symmetric:
`(i, j)` is a key iff `(j, i)` is a key, and every stored value is the weight
`1`.  The hypothesis (targets below `n`) is the condition under which the
Python call returns rather than raising on an out-of-range row. -/
theorem restrict_symmetric (n : Nat) (A : Nat → Nat → Bool) (targets : List Nat)
    (r : Int) (htargets : ∀ t ∈ targets, t < n) :
    ∀ i j : Nat,
      ((∃ w, ((i, j), w) ∈ restrict_to_local_graph n A targets r) ↔
        (∃ w, ((j, i), w) ∈ restrict_to_local_graph n A targets r)) ∧
      (∀ w, ((i, j), w) ∈ restrict_to_local_graph n A targets r → w = 1) := by
  have hswap : ∀ x y : Nat,
      (∃ w, ((x, y), w) ∈ restrict_to_local_graph n A targets r) →
      (∃ w, ((y, x), w) ∈ restrict_to_local_graph n A targets r) := by
    intro x y ⟨w, hw⟩
    rcases mem_edgePassQ.mp hw with ⟨i0, j0, di, dj, hin, hij, hj, hdi, hdj, hboth, he⟩
    rcases he with he | he
    · refine ⟨1, mem_edgePassQ.mpr ⟨i0, j0, di, dj, hin, hij, hj, hdi, hdj, hboth, Or.inr ?_⟩⟩
      simp only [Prod.mk.injEq] at he
      obtain ⟨⟨rfl, rfl⟩, rfl⟩ := he
      rfl
    · refine ⟨1, mem_edgePassQ.mpr ⟨i0, j0, di, dj, hin, hij, hj, hdi, hdj, hboth, Or.inl ?_⟩⟩
      simp only [Prod.mk.injEq] at he
      obtain ⟨⟨rfl, rfl⟩, rfl⟩ := he
      rfl
  intro i j
  refine ⟨⟨hswap i j, hswap j i⟩, ?_⟩
  intro w hw
  rcases mem_edgePassQ.mp hw with ⟨i0, j0, di, dj, _, _, _, _, _, _, he⟩
  rcases he with he | he
  · exact congrArg Prod.snd he
  · exact congrArg Prod.snd he

/-- Witness for `restrict_symmetric` on the 4-node path with target `{0}`. -/
theorem restrict_symmetric_witness :
    ((∃ w, ((1, 2), w) ∈
        restrict_to_local_graph 4 (fun i j => decide (i + 1 = j ∨ j + 1 = i)) [0] 2) ↔
      (∃ w, ((2, 1), w) ∈
        restrict_to_local_graph 4 (fun i j => decide (i + 1 = j ∨ j + 1 = i)) [0] 2)) ∧
    (∀ w, ((1, 2), w) ∈
        restrict_to_local_graph 4 (fun i j => decide (i + 1 = j ∨ j + 1 = i)) [0] 2 → w = 1) :=
  restrict_symmetric 4 (fun i j => decide (i + 1 = j ∨ j + 1 = i)) [0] 2 (by decide) 1 2

/-- Every distance the BFS loop assigns is at most the radius, provided the
incoming dictionary satisfies the same bound: fresh values are `du + 1` with
`du < r`. -/
theorem bfsAux_values_le {n : Nat} {A : Nat → Nat → Bool} {r : Int} :
    ∀ (fuel : Nat) (dist : List (Nat × Nat)) (fr : List Nat),
      (∀ v d, alook dist v = some d → (d : Int) ≤ r) →
      ∀ v d, alook (bfsAux n A r fuel dist fr) v = some d → (d : Int) ≤ r := by
  intro fuel
  induction fuel with
  | zero =>
    intro dist fr hbound v d h
    rw [bfsAux_zero] at h
    exact hbound v d h
  | succ fuel ih =>
    intro dist fr hbound v d h
    cases fr with
    | nil =>
      rw [bfsAux_nil] at h
      exact hbound v d h
    | cons u rest =>
      rcases hu : alook dist u with _ | du
      · rw [bfsAux_cons_none hu] at h
        exact ih dist rest hbound v d h
      · by_cases hge : r ≤ (du : Int)
        · rw [bfsAux_cons_skip hu hge] at h
          exact ih dist rest hbound v d h
        · rw [bfsAux_cons_expand hu hge] at h
          refine ih _ _ ?_ v d h
          intro x dx hdx
          rw [expand_alook] at hdx
          by_cases hc : x ∈ nbrs n A u ∧ alook dist x = none
          · rw [if_pos hc] at hdx
            injection hdx with hde
            omega
          · rw [if_neg hc] at hdx
            exact hbound x dx hdx

/-- For a nonnegative radius, every distance in `bfsDist` is at most `r`. -/
theorem bfsDist_values_le {n : Nat} {A : Nat → Nat → Bool} {targets : List Nat}
    {r : Int} (hr : 0 ≤ r) :
    ∀ v d, alook (bfsDist n A targets r) v = some d → (d : Int) ≤ r := by
  refine bfsAux_values_le _ _ _ ?_
  intro v d h
  rw [alook_init] at h
  by_cases hv : v ∈ targets
  · rw [if_pos hv] at h
    injection h with hd
    omega
  · rw [if_neg hv] at h
    simp at h

/-- C7: every edge `(i, j)` of the edge map returned by
`restrict_to_local_graph` (with its contractual nonnegative radius) has both
endpoints carrying an assigned BFS distance at most `max_radius`, and not both
endpoints at distance exactly `max_radius`. -/
theorem restrict_edge_endpoint_distances (n : Nat) (A : Nat → Nat → Bool)
    (targets : List Nat) (r : Int) (hr : 0 ≤ r) :
    ∀ i j w, ((i, j), w) ∈ restrict_to_local_graph n A targets r →
      ∃ di dj, alook (bfsDist n A targets r) i = some di ∧
        alook (bfsDist n A targets r) j = some dj ∧
        (di : Int) ≤ r ∧ (dj : Int) ≤ r ∧ ¬((di : Int) = r ∧ (dj : Int) = r) := by
  intro i j w hmem
  rcases mem_edgePassQ.mp hmem with ⟨i0, j0, di0, dj0, _, _, _, hdi0, hdj0, hboth, he⟩
  have hbi := bfsDist_values_le hr i0 di0 hdi0
  have hbj := bfsDist_values_le hr j0 dj0 hdj0
  rcases he with he | he
  · simp only [Prod.mk.injEq] at he
    obtain ⟨⟨rfl, rfl⟩, rfl⟩ := he
    exact ⟨di0, dj0, hdi0, hdj0, hbi, hbj, hboth⟩
  · simp only [Prod.mk.injEq] at he
    obtain ⟨⟨rfl, rfl⟩, rfl⟩ := he
    refine ⟨dj0, di0, hdj0, hdi0, hbj, hbi, ?_⟩
    intro ⟨h1, h2⟩
    exact hboth ⟨h2, h1⟩

/-- Witness for `restrict_edge_endpoint_distances` on the 4-node path. -/
theorem restrict_edge_endpoint_distances_witness :
    ∃ di dj, alook (bfsDist 4 (fun i j => decide (i + 1 = j ∨ j + 1 = i)) [0] 2) 1 = some di ∧
      alook (bfsDist 4 (fun i j => decide (i + 1 = j ∨ j + 1 = i)) [0] 2) 2 = some dj ∧
      (di : Int) ≤ 2 ∧ (dj : Int) ≤ 2 ∧ ¬((di : Int) = 2 ∧ (dj : Int) = 2) :=
  restrict_edge_endpoint_distances 4 (fun i j => decide (i + 1 = j ∨ j + 1 = i)) [0] 2
    (by decide) 1 2 1 (by decide)

/-- C10: the edge map returned by `restrict_to_local_graph` never contains a
self-loop key `(i, i)` — even when the adjacency matrix has nonzero diagonal
entries — since only pairs with `i < j` (and their mirror `(j, i)`) are ever
written. -/
theorem restrict_no_self_loops (n : Nat) (A : Nat → Nat → Bool) (targets : List Nat)
    (r : Int) :
    (∀ i w, ((i, i), w) ∉ restrict_to_local_graph n A targets r) ∧
      ∀ i j w, ((i, j), w) ∈ restrict_to_local_graph n A targets r → i < j ∨ j < i := by
  have hne : ∀ i j w, ((i, j), w) ∈ restrict_to_local_graph n A targets r → i < j ∨ j < i := by
    intro i j w hmem
    rcases mem_edgePassQ.mp hmem with ⟨i0, j0, _, _, _, hij, _, _, _, _, he⟩
    rcases he with he | he
    · simp only [Prod.mk.injEq] at he
      obtain ⟨⟨rfl, rfl⟩, rfl⟩ := he
      omega
    · simp only [Prod.mk.injEq] at he
      obtain ⟨⟨rfl, rfl⟩, rfl⟩ := he
      omega
  refine ⟨?_, hne⟩
  intro i w hmem
  rcases hne i i w hmem with h | h <;> omega

/-! ### ComponentExtractor: `node_cluster`

An edge map `Q` is an association list from ordered index pairs to q-values.
The undirected adjacency built from `Q`'s keys drops, when `remove_targets`
is set, every edge with an endpoint in the target set.  Python's per-node
neighbour *sets* are embedded as neighbour lists: duplicates are harmless
because enqueuing is guarded by the visited set, and membership is
identical.  The BFS queue holds `(node, depth)` pairs; the fuel
`1 + 2 * Q.length` bounds the number of loop iterations (each node is
enqueued at most once and only endpoints of `Q` are ever enqueued). -/

/-- Keys of `Q` surviving the `remove_targets` filter. -/
def keptEdges (Q : List ((Nat × Nat) × Nat)) (tf : List Nat) (rt : Bool) :
    List (Nat × Nat) :=
  (Q.map Prod.fst).filter
    (fun e => !(rt && (decide (e.1 ∈ tf) || decide (e.2 ∈ tf))))

/-- Neighbours of `u` in the undirected adjacency built from the kept keys
(`adj[i].add(j); adj[j].add(i)`). -/
def adjOf (Q : List ((Nat × Nat) × Nat)) (tf : List Nat) (rt : Bool) (u : Nat) :
    List Nat :=
  (keptEdges Q tf rt).flatMap (fun e =>
    (if e.1 = u then [e.2] else []) ++ (if e.2 = u then [e.1] else []))

/-- The nodes of `vs` not yet visited, in order, deduplicated sequentially:
exactly the nodes the inner loop enqueues. -/
def newNodes (visited : Finset Nat) : List Nat → List Nat
  | [] => []
  | v :: vs =>
    if v ∈ visited then newNodes visited vs
    else v :: newNodes (insert v visited) vs

/-- Inner `for v in adj[u]` loop: mark each unvisited neighbour visited and
append it to the queue at depth `d + 1`. -/
def enqueue (d : Nat) :
    List Nat → Finset Nat → List (Nat × Nat) → Finset Nat × List (Nat × Nat)
  | [], visited, queue => (visited, queue)
  | v :: vs, visited, queue =>
    if v ∈ visited then enqueue d vs visited queue
    else enqueue d vs (insert v visited) (queue ++ [(v, d + 1)])

/-- `max_radius is not None and d >= max_radius`. -/
def rstop (r : Option Int) (d : Nat) : Bool :=
  match r with
  | none => false
  | some m => decide (m ≤ (d : Int))

/-- The `while queue:` loop of `node_cluster`: pop `(u, d)`, add `u` to the
component, and unless the radius has been reached enqueue the unvisited
neighbours of `u`. -/
def clusterAux (adj : Nat → List Nat) (r : Option Int) :
    Nat → Finset Nat → Finset Nat → List (Nat × Nat) → Finset Nat
  | 0, _, comp, _ => comp
  | _ + 1, _, comp, [] => comp
  | fuel + 1, visited, comp, (u, d) :: rest =>
    if rstop r d then clusterAux adj r fuel visited (insert u comp) rest
    else
      let s := enqueue d (adj u) visited rest
      clusterAux adj r fuel s.1 (insert u comp) s.2

/-- `node_cluster(Q, anchor_node, target_features, max_radius, remove_targets)`
for an anchor already given as (or resolved to) an index. -/
def node_cluster (Q : List ((Nat × Nat) × Nat)) (anchor : Nat) (tf : List Nat)
    (r : Option Int) (rt : Bool) : Finset Nat :=
  clusterAux (adjOf Q tf rt) r (1 + 2 * Q.length) {anchor} ∅ [(anchor, 0)]

/-- The caller-supplied name↔index mapping: list form (position = index) or
associative form (name → index). -/
inductive FeatureNames : Type
  | byList : List String → FeatureNames
  | byDict : List (String × Nat) → FeatureNames

/-- Python `list.index(s)`: position of the first occurrence, if any. -/
def listIndex : List String → String → Option Nat
  | [], _ => none
  | t :: rest, s => if t = s then some 0 else (listIndex rest s).map (· + 1)

/-- Resolution of a string anchor through the mapping: associative form is a
dict lookup (`KeyError` when the name is absent), list form is positional
`list.index` (`ValueError` when the name is absent). -/
def resolve_anchor (names : FeatureNames) (s : String) : Except String Nat :=
  match names with
  | .byDict m =>
    match alook m s with
    | some i => .ok i
    | none => .error "KeyError"
  | .byList l =>
    match listIndex l s with
    | some i => .ok i
    | none => .error "ValueError"

/-- `node_cluster` called with a string anchor together with a name↔index
mapping: resolve, then run the traversal. -/
def node_cluster_byName (Q : List ((Nat × Nat) × Nat)) (s : String) (tf : List Nat)
    (names : FeatureNames) (r : Option Int) (rt : Bool) : Except String (Finset Nat) :=
  match resolve_anchor names s with
  | .error e => .error e
  | .ok a => .ok (node_cluster Q a tf r rt)

/-- `withinC adj a k v`: `v` is reachable from the anchor `a` in at most `k`
steps of the adjacency `adj`. -/
def withinC (adj : Nat → List Nat) (a : Nat) : Nat → Nat → Prop
  | 0, v => v = a
  | k + 1, v => withinC adj a k v ∨ ∃ u, withinC adj a k u ∧ v ∈ adj u

/-- `d` is the exact distance of `v` from the anchor in `adj`. -/
def isMinDistC (adj : Nat → List Nat) (a v d : Nat) : Prop :=
  withinC adj a d v ∧ ∀ k < d, ¬ withinC adj a k v

/-- `k` does not exceed the optional radius. -/
def rleS (r : Option Int) (k : Nat) : Prop :=
  match r with
  | none => True
  | some m => (k : Int) ≤ m

/-- `k` is strictly below the optional radius. -/
def rltS (r : Option Int) (k : Nat) : Prop :=
  match r with
  | none => True
  | some m => (k : Int) < m

theorem newNodes_sub {visited : Finset Nat} {vs : List Nat} :
    ∀ x ∈ newNodes visited vs, x ∈ vs ∧ x ∉ visited := by
  induction vs generalizing visited with
  | nil => intro x hx; simp [newNodes] at hx
  | cons v vs ih =>
    intro x hx
    rw [newNodes] at hx
    by_cases hv : v ∈ visited
    · rw [if_pos hv] at hx
      rcases ih x hx with ⟨h1, h2⟩
      exact ⟨List.mem_cons_of_mem _ h1, h2⟩
    · rw [if_neg hv] at hx
      rcases List.mem_cons.mp hx with rfl | hx'
      · exact ⟨List.mem_cons_self _ _, hv⟩
      · rcases ih x hx' with ⟨h1, h2⟩
        refine ⟨List.mem_cons_of_mem _ h1, fun hc => h2 (Finset.mem_insert_of_mem hc)⟩

theorem mem_newNodes {visited : Finset Nat} {vs : List Nat} {x : Nat}
    (hvs : x ∈ vs) (hx : x ∉ visited) : x ∈ newNodes visited vs := by
  induction vs generalizing visited with
  | nil => simp at hvs
  | cons v vs ih =>
    rw [newNodes]
    by_cases hv : v ∈ visited
    · rw [if_pos hv]
      rcases List.mem_cons.mp hvs with rfl | hvs'
      · exact absurd hv hx
      · exact ih hvs' hx
    · rw [if_neg hv]
      by_cases hxv : x = v
      · subst hxv
        exact List.mem_cons_self _ _
      · rcases List.mem_cons.mp hvs with h | hvs'
        · exact absurd h hxv
        · refine List.mem_cons_of_mem _ (ih hvs' ?_)
          intro hc
          rcases Finset.mem_insert.mp hc with h | h
          · exact hxv h
          · exact hx h

theorem newNodes_nodup {visited : Finset Nat} {vs : List Nat} :
    (newNodes visited vs).Nodup := by
  induction vs generalizing visited with
  | nil => simp [newNodes]
  | cons v vs ih =>
    rw [newNodes]
    by_cases hv : v ∈ visited
    · rw [if_pos hv]
      exact ih
    · rw [if_neg hv]
      refine List.nodup_cons.mpr ⟨?_, ih⟩
      intro hc
      exact (newNodes_sub v hc).2 (Finset.mem_insert_self _ _)

/-- `enqueue` marks exactly the new nodes visited and appends them to the
queue at depth `d + 1`. -/
theorem enqueue_eq (d : Nat) :
    ∀ (vs : List Nat) (visited : Finset Nat) (queue : List (Nat × Nat)),
      enqueue d vs visited queue =
        (visited ∪ (newNodes visited vs).toFinset,
          queue ++ (newNodes visited vs).map (fun v => (v, d + 1))) := by
  intro vs
  induction vs with
  | nil =>
    intro visited queue
    simp [enqueue, newNodes]
  | cons v vs ih =>
    intro visited queue
    rw [enqueue, newNodes]
    by_cases hv : v ∈ visited
    · rw [if_pos hv, if_pos hv, ih]
    · rw [if_neg hv, if_neg hv, ih]
      refine Prod.ext ?_ ?_
      · show insert v visited ∪ (newNodes (insert v visited) vs).toFinset =
          visited ∪ (v :: newNodes (insert v visited) vs).toFinset
        ext x
        simp only [Finset.mem_union, Finset.mem_insert, List.toFinset_cons, List.mem_toFinset]
        tauto
      · show queue ++ [(v, d + 1)] ++ (newNodes (insert v visited) vs).map (fun x => (x, d + 1)) =
          queue ++ ((v :: newNodes (insert v visited) vs).map (fun x => (x, d + 1)))
        simp [List.append_assoc]

theorem withinC_mono {adj : Nat → List Nat} {a : Nat} : ∀ {k k' v}, k ≤ k' →
    withinC adj a k v → withinC adj a k' v := by
  intro k k' v h hw
  induction k' with
  | zero => exact Nat.le_zero.mp h ▸ hw
  | succ m ih =>
    rcases Nat.lt_or_ge k (m + 1) with hlt | hge
    · exact Or.inl (ih (Nat.lt_succ_iff.mp hlt))
    · exact (Nat.le_antisymm h hge) ▸ hw

theorem isMinDistC_le {adj a v d k} (h : isMinDistC adj a v d)
    (hw : withinC adj a k v) : d ≤ k := by
  by_contra hc
  exact h.2 k (Nat.lt_of_not_le hc) hw

/-- A node reachable within `k` steps has an exact distance `≤ k`. -/
theorem exists_isMinDistC {adj a} : ∀ {k v}, withinC adj a k v →
    ∃ d, d ≤ k ∧ isMinDistC adj a v d := by
  intro k
  induction k using Nat.strong_induction_on with
  | _ k ih =>
    intro v hw
    by_cases hmin : ∀ j < k, ¬ withinC adj a j v
    · exact ⟨k, Nat.le_refl _, hw, hmin⟩
    · push_neg at hmin
      rcases hmin with ⟨j, hj, hwj⟩
      rcases ih j hj hwj with ⟨d, hd, hmin⟩
      exact ⟨d, by omega, hmin⟩

/-- Invariant of the BFS loop state of `node_cluster`:
queued nodes are visited; queued depths are nondecreasing, within one of each
other, and exact; the component tracks popped visited nodes; every visited
node is sound (anchor, or reachable within the radius); and every popped
visited node strictly inside the radius has all neighbours visited. -/
structure ClusterInv (adj : Nat → List Nat) (a : Nat) (r : Option Int)
    (visited comp : Finset Nat) (queue : List (Nat × Nat)) : Prop where
  anchor : a ∈ visited
  qvisited : ∀ p ∈ queue, p.1 ∈ visited
  sorted : queue.Pairwise (fun p q => p.2 ≤ q.2)
  close : ∀ p ∈ queue, ∀ q ∈ queue, q.2 ≤ p.2 + 1
  exact : ∀ p ∈ queue, isMinDistC adj a p.1 p.2
  vtracked : ∀ v ∈ visited, v ∈ comp ∨ ∃ e, (v, e) ∈ queue
  ctracked : comp ⊆ visited
  vsound : ∀ v ∈ visited, v = a ∨ ∃ k, rleS r k ∧ withinC adj a k v
  processed : ∀ u ∈ visited, (∀ e, (u, e) ∉ queue) → ∀ d, isMinDistC adj a u d →
    rltS r d → ∀ v ∈ adj u, v ∈ visited

/-- Every node within `k` steps of the anchor and within the radius is
already visited, provided every queued depth is at least `k`. -/
theorem cluster_covered {adj : Nat → List Nat} {a : Nat} {r : Option Int}
    {visited comp : Finset Nat} {queue : List (Nat × Nat)}
    (inv : ClusterInv adj a r visited comp queue) :
    ∀ k w, withinC adj a k w → rleS r k →
      (∀ p ∈ queue, k ≤ p.2) → w ∈ visited := by
  intro k
  induction k with
  | zero =>
    intro w hw _ _
    exact hw ▸ inv.anchor
  | succ j ih =>
    intro w hw hkr hq
    have hkr' : rleS r j := by
      cases r with
      | none => trivial
      | some m =>
        simp only [rleS] at hkr ⊢
        omega
    have hq' : ∀ p ∈ queue, j ≤ p.2 := fun p hp => Nat.le_of_succ_le (hq p hp)
    rcases hw with hw | ⟨u', hu', hstep⟩
    · exact ih w hw hkr' hq'
    · have hu'vis : u' ∈ visited := ih u' hu' hkr' hq'
      rcases exists_isMinDistC hu' with ⟨d', hd'le, hd'min⟩
      have hu'notq : ∀ e, (u', e) ∉ queue := by
        intro e he
        have hmin := inv.exact (u', e) he
        have : e ≤ j := isMinDistC_le hmin hu'
        have := hq (u', e) he
        omega
      have hrlt : rltS r d' := by
        cases r with
        | none => trivial
        | some m =>
          simp only [rleS] at hkr
          simp only [rltS]
          omega
      exact inv.processed u' hu'vis hu'notq d' hd'min hrlt w hstep

/-- Popping `(u, d)` whose depth has reached the radius preserves the cluster
loop invariant. -/
theorem clusterInv_skip {adj : Nat → List Nat} {a : Nat} {r : Option Int}
    {visited comp : Finset Nat} {u d : Nat} {rest : List (Nat × Nat)}
    (inv : ClusterInv adj a r visited comp ((u, d) :: rest))
    (hstop : rstop r d = true) :
    ClusterInv adj a r visited (insert u comp) rest := by
  have huvis : u ∈ visited := inv.qvisited (u, d) (List.mem_cons_self _ _)
  constructor
  · exact inv.anchor
  · exact fun p hp => inv.qvisited p (List.mem_cons_of_mem _ hp)
  · exact (List.pairwise_cons.mp inv.sorted).2
  · exact fun p hp q hq =>
      inv.close p (List.mem_cons_of_mem _ hp) q (List.mem_cons_of_mem _ hq)
  · exact fun p hp => inv.exact p (List.mem_cons_of_mem _ hp)
  · intro v hv
    rcases inv.vtracked v hv with hc | ⟨e, he⟩
    · exact Or.inl (Finset.mem_insert_of_mem hc)
    · rcases List.mem_cons.mp he with he | he
      · injection he with h1 _
        exact Or.inl (h1 ▸ Finset.mem_insert_self _ _)
      · exact Or.inr ⟨e, he⟩
  · intro x hx
    rcases Finset.mem_insert.mp hx with rfl | hx
    · exact huvis
    · exact inv.ctracked hx
  · exact inv.vsound
  · intro x hxvis hxnotq dx hdx hxr
    by_cases hxu : x = u
    · subst hxu
      exfalso
      have hmin := inv.exact (x, d) (List.mem_cons_self _ _)
      have h1 : dx ≤ d := isMinDistC_le hdx hmin.1
      have h2 : d ≤ dx := isMinDistC_le hmin hdx.1
      cases r with
      | none => simp [rstop] at hstop
      | some m =>
        have hmd : m ≤ (d : Int) := of_decide_eq_true hstop
        simp only [rltS] at hxr
        omega
    · refine inv.processed x hxvis ?_ dx hdx hxr
      intro e he
      rcases List.mem_cons.mp he with he | he
      · injection he with h1 _
        exact hxu h1
      · exact hxnotq e he

/-- Popping `(u, d)` strictly inside the radius and enqueuing its unvisited
neighbours preserves the cluster loop invariant. -/
theorem clusterInv_expand {adj : Nat → List Nat} {a : Nat} {r : Option Int}
    {visited comp : Finset Nat} {u d : Nat} {rest : List (Nat × Nat)}
    (inv : ClusterInv adj a r visited comp ((u, d) :: rest))
    (hgo : rstop r d = false) :
    ClusterInv adj a r (enqueue d (adj u) visited rest).1 (insert u comp)
      (enqueue d (adj u) visited rest).2 := by
  have huvis : u ∈ visited := inv.qvisited (u, d) (List.mem_cons_self _ _)
  have hud : isMinDistC adj a u d := inv.exact (u, d) (List.mem_cons_self _ _)
  have hrd : rltS r d := by
    cases r with
    | none => trivial
    | some m =>
      simp only [rstop, decide_eq_false_iff_not] at hgo
      simp only [rltS]
      omega
  rw [enqueue_eq]
  set newly := newNodes visited (adj u) with hnewly
  have hfresh : ∀ x ∈ newly, x ∈ adj u ∧ x ∉ visited := fun x hx => newNodes_sub x hx
  have hrestlo : ∀ p ∈ rest, d ≤ p.2 :=
    fun p hp => (List.pairwise_cons.mp inv.sorted).1 p hp
  have hresthi : ∀ p ∈ rest, p.2 ≤ d + 1 :=
    fun p hp => inv.close (u, d) (List.mem_cons_self _ _) p (List.mem_cons_of_mem _ hp)
  have hfresh_exact : ∀ x ∈ newly, isMinDistC adj a x (d + 1) := by
    intro x hx
    rcases hfresh x hx with ⟨hadj, hnvis⟩
    constructor
    · exact Or.inr ⟨u, hud.1, hadj⟩
    · intro k hk hw
      refine hnvis (cluster_covered inv k x hw ?_ ?_)
      · cases r with
        | none => trivial
        | some m =>
          simp only [rltS] at hrd
          simp only [rleS]
          omega
      · intro p hp
        rcases List.mem_cons.mp hp with rfl | hp'
        · omega
        · have := hrestlo p hp'
          omega
  constructor
  · exact Finset.mem_union_left _ inv.anchor
  · intro p hp
    rcases List.mem_append.mp hp with hp | hp
    · exact Finset.mem_union_left _ (inv.qvisited p (List.mem_cons_of_mem _ hp))
    · rcases List.mem_map.mp hp with ⟨x, hx, rfl⟩
      exact Finset.mem_union_right _ (List.mem_toFinset.mpr hx)
  · rw [List.pairwise_append]
    refine ⟨(List.pairwise_cons.mp inv.sorted).2, ?_, ?_⟩
    · apply List.pairwise_of_forall_mem_list
      intro p hp q hq
      rcases List.mem_map.mp hp with ⟨x, _, rfl⟩
      rcases List.mem_map.mp hq with ⟨y, _, rfl⟩
      exact Nat.le_refl _
    · intro p hp q hq
      rcases List.mem_map.mp hq with ⟨y, _, rfl⟩
      have := hresthi p hp
      simpa using this
  · intro p hp q hq
    have hplo : d ≤ p.2 := by
      rcases List.mem_append.mp hp with hp | hp
      · exact hrestlo p hp
      · rcases List.mem_map.mp hp with ⟨x, _, rfl⟩
        simp
    have hqhi : q.2 ≤ d + 1 := by
      rcases List.mem_append.mp hq with hq | hq
      · exact hresthi q hq
      · rcases List.mem_map.mp hq with ⟨y, _, rfl⟩
        simp
    omega
  · intro p hp
    rcases List.mem_append.mp hp with hp | hp
    · exact inv.exact p (List.mem_cons_of_mem _ hp)
    · rcases List.mem_map.mp hp with ⟨x, hx, rfl⟩
      exact hfresh_exact x hx
  · intro v hv
    rcases Finset.mem_union.mp hv with hv | hv
    · rcases inv.vtracked v hv with hc | ⟨e, he⟩
      · exact Or.inl (Finset.mem_insert_of_mem hc)
      · rcases List.mem_cons.mp he with he | he
        · injection he with h1 _
          exact Or.inl (h1 ▸ Finset.mem_insert_self _ _)
        · exact Or.inr ⟨e, List.mem_append.mpr (Or.inl he)⟩
    · refine Or.inr ⟨d + 1, List.mem_append.mpr (Or.inr ?_)⟩
      exact List.mem_map.mpr ⟨v, List.mem_toFinset.mp hv, rfl⟩
  · intro x hx
    rcases Finset.mem_insert.mp hx with rfl | hx
    · exact Finset.mem_union_left _ huvis
    · exact Finset.mem_union_left _ (inv.ctracked hx)
  · intro v hv
    rcases Finset.mem_union.mp hv with hv | hv
    · exact inv.vsound v hv
    · have hx := List.mem_toFinset.mp hv
      refine Or.inr ⟨d + 1, ?_, (hfresh_exact v hx).1⟩
      cases r with
      | none => trivial
      | some m =>
        simp only [rltS] at hrd
        simp only [rleS]
        omega
  · intro x hxvis hxnotq dx hdx hxr
    rcases Finset.mem_union.mp hxvis with hxold | hxnew
    · by_cases hxu : x = u
      · subst hxu
        intro v hadj
        by_cases hv : v ∈ visited
        · exact Finset.mem_union_left _ hv
        · exact Finset.mem_union_right _ (List.mem_toFinset.mpr (mem_newNodes hadj hv))
      · have hold : ∀ e, (x, e) ∉ (u, d) :: rest := by
          intro e he
          rcases List.mem_cons.mp he with he | he
          · injection he with h1 _
            exact hxu h1
          · exact hxnotq e (List.mem_append.mpr (Or.inl he))
        intro v hadj
        exact Finset.mem_union_left _ (inv.processed x hxold hold dx hdx hxr v hadj)
    · exfalso
      refine hxnotq (d + 1) (List.mem_append.mpr (Or.inr ?_))
      exact List.mem_map.mpr ⟨x, List.mem_toFinset.mp hxnew, rfl⟩

theorem clusterAux_zero {adj r visited comp queue} :
    clusterAux adj r 0 visited comp queue = comp := rfl

theorem clusterAux_nil {adj r visited comp} :
    ∀ fuel, clusterAux adj r fuel visited comp [] = comp := by
  intro fuel
  cases fuel <;> rfl

theorem clusterAux_cons_stop {adj r fuel visited comp u d rest}
    (hstop : rstop r d = true) :
    clusterAux adj r (fuel + 1) visited comp ((u, d) :: rest) =
      clusterAux adj r fuel visited (insert u comp) rest := by
  simp [clusterAux, hstop]

theorem clusterAux_cons_go {adj r fuel visited comp u d rest}
    (hgo : rstop r d = false) :
    clusterAux adj r (fuel + 1) visited comp ((u, d) :: rest) =
      clusterAux adj r fuel (enqueue d (adj u) visited rest).1 (insert u comp)
        (enqueue d (adj u) visited rest).2 := by
  simp [clusterAux, hgo]

/-- When the queue has drained, the component equals the visited set and
carries the soundness and completeness facts of the invariant. -/
theorem clusterInv_final {adj : Nat → List Nat} {a : Nat} {r : Option Int}
    {visited comp : Finset Nat} (inv : ClusterInv adj a r visited comp []) :
    (∀ v ∈ comp, v = a ∨ ∃ k, rleS r k ∧ withinC adj a k v) ∧ a ∈ comp ∧
      ∀ k w, withinC adj a k w → rleS r k → w ∈ comp := by
  have hvc : ∀ v ∈ visited, v ∈ comp := by
    intro v hv
    rcases inv.vtracked v hv with hc | ⟨e, he⟩
    · exact hc
    · simp at he
  refine ⟨?_, hvc a inv.anchor, ?_⟩
  · intro v hv
    exact inv.vsound v (inv.ctracked hv)
  · intro k w hw hk
    exact hvc w (cluster_covered inv k w hw hk (by simp))

/-- Main specification of the `node_cluster` BFS loop from any invariant
state whose fuel dominates the queue length plus the unvisited portion of a
superset `univ` of all reachable nodes: the result contains exactly the
anchor together with the nodes within the radius. -/
theorem clusterAux_spec {adj : Nat → List Nat} {a : Nat} {r : Option Int}
    {univ : Finset Nat} (hadj : ∀ u, ∀ v ∈ adj u, v ∈ univ) :
    ∀ (fuel : Nat) (visited comp : Finset Nat) (queue : List (Nat × Nat)),
      ClusterInv adj a r visited comp queue →
      visited ⊆ univ →
      queue.length + (univ \ visited).card ≤ fuel →
      (∀ v ∈ clusterAux adj r fuel visited comp queue,
          v = a ∨ ∃ k, rleS r k ∧ withinC adj a k v) ∧
        a ∈ clusterAux adj r fuel visited comp queue ∧
        ∀ k w, withinC adj a k w → rleS r k →
          w ∈ clusterAux adj r fuel visited comp queue := by
  intro fuel
  induction fuel with
  | zero =>
    intro visited comp queue inv hsub hcount
    have hq : queue = [] := List.length_eq_zero.mp (by omega)
    subst hq
    rw [clusterAux_zero]
    exact clusterInv_final inv
  | succ fuel ih =>
    intro visited comp queue inv hsub hcount
    cases queue with
    | nil =>
      rw [clusterAux_nil]
      exact clusterInv_final inv
    | cons p rest =>
      rcases p with ⟨u, d⟩
      by_cases hstop : rstop r d = true
      · rw [clusterAux_cons_stop hstop]
        refine ih visited (insert u comp) rest (clusterInv_skip inv hstop) hsub ?_
        simp only [List.length_cons] at hcount
        omega
      · have hgo : rstop r d = false := by
          cases h : rstop r d
          · rfl
          · exact absurd h hstop
        rw [clusterAux_cons_go hgo]
        have hinv' := clusterInv_expand inv hgo
        rw [enqueue_eq] at hinv' ⊢
        set newly := newNodes visited (adj u) with hnewly
        have hnewsub : newly.toFinset ⊆ univ \ visited := by
          intro x hx
          rw [List.mem_toFinset] at hx
          rcases newNodes_sub x hx with ⟨hmem, hnvis⟩
          exact Finset.mem_sdiff.mpr ⟨hadj u x hmem, hnvis⟩
        refine ih _ _ _ hinv' ?_ ?_
        · intro x hx
          rcases Finset.mem_union.mp hx with hx | hx
          · exact hsub hx
          · exact (Finset.mem_sdiff.mp (hnewsub hx)).1
        · have hsplit : univ \ (visited ∪ newly.toFinset) =
              (univ \ visited) \ newly.toFinset := by
            ext x
            simp only [Finset.mem_sdiff, Finset.mem_union]
            tauto
          rw [hsplit, Finset.card_sdiff hnewsub]
          have hcard : newly.toFinset.card = newly.length :=
            List.toFinset_card_of_nodup newNodes_nodup
          have hle := Finset.card_le_card hnewsub
          rw [hcard] at hle
          simp only [List.length_append, List.length_map, List.length_cons] at hcount ⊢
          omega

theorem mem_keptEdges {Q : List ((Nat × Nat) × Nat)} {tf : List Nat} {rt : Bool}
    {e : Nat × Nat} :
    e ∈ keptEdges Q tf rt ↔
      (∃ p ∈ Q, p.1 = e) ∧ ¬(rt = true ∧ (e.1 ∈ tf ∨ e.2 ∈ tf)) := by
  rw [keptEdges, List.mem_filter, List.mem_map]
  constructor
  · intro ⟨⟨p, hp, hpe⟩, hcond⟩
    refine ⟨⟨p, hp, hpe⟩, ?_⟩
    intro ⟨hrt, htouch⟩
    subst hrt
    simp only [Bool.not_eq_eq_eq_not, Bool.not_true, Bool.true_and] at hcond
    rcases htouch with h | h
    · simp [h] at hcond
    · simp [h] at hcond
  · intro ⟨⟨p, hp, hpe⟩, hcond⟩
    refine ⟨⟨p, hp, hpe⟩, ?_⟩
    cases rt with
    | false => simp
    | true =>
      simp only [Bool.true_and, Bool.not_eq_eq_eq_not, Bool.not_true]
      have h1 : e.1 ∉ tf := fun h => hcond ⟨rfl, Or.inl h⟩
      have h2 : e.2 ∉ tf := fun h => hcond ⟨rfl, Or.inr h⟩
      simp [h1, h2]

theorem mem_adjOf {Q : List ((Nat × Nat) × Nat)} {tf : List Nat} {rt : Bool}
    {x y : Nat} :
    y ∈ adjOf Q tf rt x ↔
      ∃ e ∈ keptEdges Q tf rt, e = (x, y) ∨ e = (y, x) := by
  rw [adjOf, List.mem_flatMap]
  constructor
  · rintro ⟨⟨e1, e2⟩, he, hy⟩
    rw [List.mem_append] at hy
    refine ⟨(e1, e2), he, ?_⟩
    rcases hy with hy | hy
    · by_cases h1 : e1 = x
      · rw [if_pos h1] at hy
        simp only [List.mem_singleton] at hy
        subst h1
        subst hy
        exact Or.inl rfl
      · rw [if_neg h1] at hy
        simp at hy
    · by_cases h2 : e2 = x
      · rw [if_pos h2] at hy
        simp only [List.mem_singleton] at hy
        subst h2
        subst hy
        exact Or.inr rfl
      · rw [if_neg h2] at hy
        simp at hy
  · rintro ⟨e, he, (rfl | rfl)⟩
    · exact ⟨(x, y), he, by simp⟩
    · exact ⟨(y, x), he, by simp⟩

/-- All node indices occurring as an endpoint of a key of `Q`. -/
def qNodes (Q : List ((Nat × Nat) × Nat)) : Finset Nat :=
  Q.foldr (fun p s => insert p.1.1 (insert p.1.2 s)) ∅

theorem mem_qNodes {Q : List ((Nat × Nat) × Nat)} {x : Nat} :
    x ∈ qNodes Q ↔ ∃ p ∈ Q, p.1.1 = x ∨ p.1.2 = x := by
  induction Q with
  | nil => simp [qNodes]
  | cons p Q ih =>
    rw [qNodes, List.foldr_cons]
    simp only [Finset.mem_insert]
    rw [show Q.foldr (fun p s => insert p.1.1 (insert p.1.2 s)) ∅ = qNodes Q from rfl, ih]
    simp only [List.mem_cons]
    constructor
    · rintro (rfl | rfl | ⟨q, hq, hor⟩)
      · exact ⟨p, Or.inl rfl, Or.inl rfl⟩
      · exact ⟨p, Or.inl rfl, Or.inr rfl⟩
      · exact ⟨q, Or.inr hq, hor⟩
    · rintro ⟨q, (rfl | hq), hor⟩
      · rcases hor with h | h
        · exact Or.inl h.symm
        · exact Or.inr (Or.inl h.symm)
      · exact Or.inr (Or.inr ⟨q, hq, hor⟩)

theorem qNodes_card_le (Q : List ((Nat × Nat) × Nat)) :
    (qNodes Q).card ≤ 2 * Q.length := by
  induction Q with
  | nil => simp [qNodes]
  | cons p Q ih =>
    have h1 := Finset.card_insert_le p.1.1 (insert p.1.2 (qNodes Q))
    have h2 := Finset.card_insert_le p.1.2 (qNodes Q)
    have : qNodes (p :: Q) = insert p.1.1 (insert p.1.2 (qNodes Q)) := rfl
    rw [this, List.length_cons]
    omega

/-- The initial state of `node_cluster` satisfies the loop invariant. -/
theorem clusterInv_init (adj : Nat → List Nat) (a : Nat) (r : Option Int) :
    ClusterInv adj a r {a} ∅ [(a, 0)] := by
  constructor
  · exact Finset.mem_singleton_self a
  · intro p hp
    rcases List.mem_cons.mp hp with rfl | hp
    · exact Finset.mem_singleton_self a
    · simp at hp
  · simp
  · intro p hp q hq
    rcases List.mem_cons.mp hp with rfl | hp
    · rcases List.mem_cons.mp hq with rfl | hq
      · omega
      · simp at hq
    · simp at hp
  · intro p hp
    rcases List.mem_cons.mp hp with rfl | hp
    · exact ⟨rfl, fun k hk => absurd hk (Nat.not_lt_zero k)⟩
    · simp at hp
  · intro v hv
    rw [Finset.mem_singleton] at hv
    exact Or.inr ⟨0, hv ▸ List.mem_cons_self _ _⟩
  · exact Finset.empty_subset _
  · intro v hv
    rw [Finset.mem_singleton] at hv
    exact Or.inl hv
  · intro u hu hnot d _ _
    rw [Finset.mem_singleton] at hu
    subst hu
    exact absurd (List.mem_cons_self _ _) (hnot 0)

/-- Membership characterization of `node_cluster`: the result holds exactly
the anchor together with every node reachable from it within the radius in
the target-pruned undirected graph of `Q`'s keys. -/
theorem node_cluster_mem (Q : List ((Nat × Nat) × Nat)) (a : Nat) (tf : List Nat)
    (r : Option Int) (rt : Bool) :
    ∀ v, v ∈ node_cluster Q a tf r rt ↔
      (v = a ∨ ∃ k, rleS r k ∧ withinC (adjOf Q tf rt) a k v) := by
  have hadj : ∀ u, ∀ v ∈ adjOf Q tf rt u, v ∈ insert a (qNodes Q) := by
    intro u v hv
    rcases mem_adjOf.mp hv with ⟨e, he, hor⟩
    rcases (mem_keptEdges.mp he).1 with ⟨p, hp, hpe⟩
    refine Finset.mem_insert_of_mem (mem_qNodes.mpr ⟨p, hp, ?_⟩)
    rcases hor with rfl | rfl
    · exact Or.inr (by rw [hpe])
    · exact Or.inl (by rw [hpe])
  have hsub : ({a} : Finset Nat) ⊆ insert a (qNodes Q) := by
    intro x hx
    rw [Finset.mem_singleton] at hx
    exact hx ▸ Finset.mem_insert_self _ _
  have hcount : ([(a, 0)] : List (Nat × Nat)).length +
      ((insert a (qNodes Q) : Finset Nat) \ {a}).card ≤ 1 + 2 * Q.length := by
    have hsdiff : (insert a (qNodes Q) : Finset Nat) \ {a} ⊆ qNodes Q := by
      intro x hx
      rcases Finset.mem_sdiff.mp hx with ⟨hx1, hx2⟩
      rw [Finset.mem_singleton] at hx2
      rcases Finset.mem_insert.mp hx1 with rfl | hx1
      · exact absurd rfl hx2
      · exact hx1
    have h1 := Finset.card_le_card hsdiff
    have h2 := qNodes_card_le Q
    simp only [List.length_singleton]
    omega
  have hspec := clusterAux_spec hadj (1 + 2 * Q.length) {a} ∅ [(a, 0)]
    (clusterInv_init (adjOf Q tf rt) a r) hsub hcount
  intro v
  constructor
  · exact fun hv => hspec.1 v hv
  · intro h
    rcases h with rfl | ⟨k, hk, hw⟩
    · exact hspec.2.1
    · exact hspec.2.2 k v hw hk

/-- The undirected step relation of the graph formed from `Q`'s keys, with
edges touching targets removed when `remove_targets` is set. -/
def qAdjRel (Q : List ((Nat × Nat) × Nat)) (tf : List Nat) (rt : Bool) (x y : Nat) :
    Prop :=
  ∃ p ∈ Q, (p.1 = (x, y) ∨ p.1 = (y, x)) ∧ ¬(rt = true ∧ (p.1.1 ∈ tf ∨ p.1.2 ∈ tf))

theorem qAdjRel_iff {Q : List ((Nat × Nat) × Nat)} {tf : List Nat} {rt : Bool}
    {x y : Nat} : qAdjRel Q tf rt x y ↔ y ∈ adjOf Q tf rt x := by
  rw [mem_adjOf]
  constructor
  · rintro ⟨p, hp, hor, hno⟩
    exact ⟨p.1, mem_keptEdges.mpr ⟨⟨p, hp, rfl⟩, hno⟩, hor⟩
  · rintro ⟨e, he, hor⟩
    rcases mem_keptEdges.mp he with ⟨⟨p, hp, hpe⟩, hno⟩
    subst hpe
    exact ⟨p, hp, hor, hno⟩

theorem withinC_iff_reflTransGen {adj : Nat → List Nat} {a v : Nat} :
    (∃ k, withinC adj a k v) ↔
      Relation.ReflTransGen (fun x y => y ∈ adj x) a v := by
  constructor
  · rintro ⟨k, hk⟩
    induction k generalizing v with
    | zero =>
      have : v = a := hk
      subst this
      exact Relation.ReflTransGen.refl
    | succ j ih =>
      rcases hk with hk | ⟨u, hu, hadj⟩
      · exact ih hk
      · exact Relation.ReflTransGen.tail (ih hu) hadj
  · intro h
    induction h with
    | refl => exact ⟨0, rfl⟩
    | tail _ hbc ih =>
      rcases ih with ⟨k, hk⟩
      exact ⟨k + 1, Or.inr ⟨_, hk, hbc⟩⟩

/-- C2: with `maxRadius = None`, `node_cluster` returns exactly the connected
component of the anchor in the undirected graph formed from `Q`'s keys, after
removing edges touching targets when `remove_targets` is set: a node is in the
result iff it is reachable from the anchor. -/
theorem node_cluster_full_component (Q : List ((Nat × Nat) × Nat)) (a : Nat)
    (tf : List Nat) (rt : Bool) :
    ∀ v, v ∈ node_cluster Q a tf none rt ↔
      Relation.ReflTransGen (qAdjRel Q tf rt) a v := by
  intro v
  rw [node_cluster_mem]
  have hrel : Relation.ReflTransGen (qAdjRel Q tf rt) a v ↔
      Relation.ReflTransGen (fun x y => y ∈ adjOf Q tf rt x) a v := by
    constructor
    · exact Relation.ReflTransGen.mono (fun x y h => qAdjRel_iff.mp h)
    · exact Relation.ReflTransGen.mono (fun x y h => qAdjRel_iff.mpr h)
  rw [hrel, ← withinC_iff_reflTransGen]
  constructor
  · rintro (rfl | ⟨k, _, hk⟩)
    · exact ⟨0, rfl⟩
    · exact ⟨k, hk⟩
  · rintro ⟨k, hk⟩
    exact Or.inr ⟨k, trivial, hk⟩

theorem adjOf_remove_sub {Q : List ((Nat × Nat) × Nat)} {tf : List Nat} {x y : Nat}
    (h : y ∈ adjOf Q tf true x) : y ∈ adjOf Q tf false x := by
  rcases mem_adjOf.mp h with ⟨e, he, hor⟩
  rcases mem_keptEdges.mp he with ⟨hkey, _⟩
  exact mem_adjOf.mpr ⟨e, mem_keptEdges.mpr ⟨hkey, by simp⟩, hor⟩

theorem withinC_mono_adj {adj1 adj2 : Nat → List Nat} {a : Nat}
    (h : ∀ u v, v ∈ adj1 u → v ∈ adj2 u) :
    ∀ {k v}, withinC adj1 a k v → withinC adj2 a k v := by
  intro k
  induction k with
  | zero => exact fun hv => hv
  | succ j ih =>
    rintro v (hv | ⟨u, hu, hadj⟩)
    · exact Or.inl (ih hv)
    · exact Or.inr ⟨u, ih hu, h u v hadj⟩

/-- C8: for the same edge map, anchor and radius, the neighborhood computed
with `remove_targets = true` is a subset of the one computed with
`remove_targets = false`: dropping the edges that touch targets can never
enlarge the result. -/
theorem node_cluster_remove_targets_subset (Q : List ((Nat × Nat) × Nat)) (a : Nat)
    (tf : List Nat) (r : Option Int) :
    node_cluster Q a tf r true ⊆ node_cluster Q a tf r false := by
  intro v hv
  rcases (node_cluster_mem Q a tf r true v).mp hv with rfl | ⟨k, hk, hw⟩
  · exact (node_cluster_mem Q v tf r false v).mpr (Or.inl rfl)
  · refine (node_cluster_mem Q a tf r false v).mpr (Or.inr ⟨k, hk, ?_⟩)
    exact withinC_mono_adj (fun u w hw' => adjOf_remove_sub hw') hw

/-- C9: the set returned by `node_cluster` always contains the anchor; and if
`remove_targets = true` drops every edge of `Q` touching the anchor (each such
edge has an endpoint in the target set), the result is exactly `{anchor}`. -/
theorem node_cluster_contains_anchor (Q : List ((Nat × Nat) × Nat)) (a : Nat)
    (tf : List Nat) (r : Option Int) (rt : Bool) :
    a ∈ node_cluster Q a tf r rt ∧
      ((∀ p ∈ Q, (p.1.1 = a ∨ p.1.2 = a) → (p.1.1 ∈ tf ∨ p.1.2 ∈ tf)) →
        node_cluster Q a tf r true = {a}) := by
  constructor
  · exact (node_cluster_mem Q a tf r rt a).mpr (Or.inl rfl)
  · intro htouch
    have hadj : ∀ y, y ∉ adjOf Q tf true a := by
      intro y hy
      rcases qAdjRel_iff.mpr hy with ⟨p, hp, hor, hno⟩
      apply hno
      refine ⟨rfl, htouch p hp ?_⟩
      rcases hor with h | h
      · exact Or.inl (by rw [h])
      · exact Or.inr (by rw [h])
    have hstuck : ∀ k v, withinC (adjOf Q tf true) a k v → v = a := by
      intro k
      induction k with
      | zero => exact fun v hv => hv
      | succ j ih =>
        rintro v (hv | ⟨u, hu, hmem⟩)
        · exact ih v hv
        · have hu' := ih u hu
          subst hu'
          exact absurd hmem (hadj v)
    ext v
    rw [node_cluster_mem, Finset.mem_singleton]
    constructor
    · rintro (rfl | ⟨k, _, hk⟩)
      · rfl
      · exact hstuck k v hk
    · rintro rfl
      exact Or.inl rfl

/-- Witness for `node_cluster_contains_anchor`: the spec's scenario where the
anchor `0` is itself a target and its only edges run to non-targets, so edge
removal isolates it. -/
theorem node_cluster_contains_anchor_witness :
    0 ∈ node_cluster [((0, 1), 1), ((1, 0), 1), ((1, 2), 1), ((2, 1), 1)] 0 [0]
        (some 5) true ∧
      node_cluster [((0, 1), 1), ((1, 0), 1), ((1, 2), 1), ((2, 1), 1)] 0 [0]
        (some 5) true = {0} := by
  have h := node_cluster_contains_anchor
    [((0, 1), 1), ((1, 0), 1), ((1, 2), 1), ((2, 1), 1)] 0 [0] (some 5) true
  exact ⟨h.1, h.2 (by decide)⟩

theorem listIndex_eq_none {l : List String} {s : String} (h : s ∉ l) :
    listIndex l s = none := by
  induction l with
  | nil => rfl
  | cons t rest ih =>
    rw [listIndex]
    have hts : ¬ t = s := fun hc => h (hc ▸ List.mem_cons_self _ _)
    rw [if_neg hts, ih (fun hc => h (List.mem_cons_of_mem _ hc))]
    rfl

theorem alook_eq_none {κ ν : Type} [DecidableEq κ] {m : List (κ × ν)} {s : κ}
    (h : s ∉ m.map Prod.fst) : alook m s = none := by
  induction m with
  | nil => rfl
  | cons p rest ih =>
    rw [alook_cons]
    have hps : ¬ p.1 = s := by
      intro hc
      exact h (List.mem_map.mpr ⟨p, List.mem_cons_self _ _, hc⟩)
    rw [if_neg hps]
    refine ih ?_
    intro hc
    rcases List.mem_map.mp hc with ⟨q, hq, hqs⟩
    exact h (List.mem_map.mpr ⟨q, List.mem_cons_of_mem _ hq, hqs⟩)

/-- C5: calling `node_cluster` with a string anchor together with a
name↔index mapping fails with a lookup error when the name is absent from the
mapping — in the list form (positional `list.index`) and in the associative
form (dict lookup) alike. -/
theorem absent_anchor_name_errors (Q : List ((Nat × Nat) × Nat)) (s : String)
    (tf : List Nat) (r : Option Int) (rt : Bool) (l : List String)
    (m : List (String × Nat)) :
    (s ∉ l → isErr (node_cluster_byName Q s tf (.byList l) r rt) = true) ∧
      (s ∉ m.map Prod.fst →
        isErr (node_cluster_byName Q s tf (.byDict m) r rt) = true) := by
  constructor
  · intro h
    rw [node_cluster_byName]
    simp [resolve_anchor, listIndex_eq_none h, isErr]
  · intro h
    rw [node_cluster_byName]
    simp [resolve_anchor, alook_eq_none h, isErr]

/-- Witness for `absent_anchor_name_errors` at a concrete absent name. -/
theorem absent_anchor_name_errors_witness :
    isErr (node_cluster_byName [] "x" [] (.byList ["a"]) none true) = true ∧
      isErr (node_cluster_byName [] "x" [] (.byDict [("a", 0)]) none true) = true := by
  have h := absent_anchor_name_errors [] "x" [] none true ["a"] [("a", 0)]
  exact ⟨h.1 (by decide), h.2 (by decide)⟩

end LocalGraph
